import Mathlib

/-!
Verification of `ps-tree` (src/index.js): the process-table row model, the
single-pass descendant (tree-builder) scan, the CSV line parser, the POSIX
line matcher, header normalization, the per-line parser callback, and the
synchronous callback validation of the public entry point.
-/

namespace PsTree

/-- A normalized process-table row `{COMMAND, PPID, PID, STAT}` (spec §3);
all fields are kept as strings as in the JS object built at
src/index.js lines 93-96. -/
structure ProcessRow where
  COMMAND : String
  PPID : String
  PID : String
  STAT : String
deriving DecidableEq, Repr

/-- State of the tree-builder pass at src/index.js lines 101-110: the
`parents` object (modelled as the list of keys set to `true`; membership is
what the code tests) and the accumulated `children` array. -/
structure TreeState where
  parents : List String
  children : List ProcessRow
deriving DecidableEq, Repr

/-- One iteration of the `ps.forEach` loop (src/index.js lines 105-110):
if the row's PPID is a key of `parents`, record its PID as a parent and
push the row onto `children`; otherwise leave the state unchanged. -/
def treeStep (st : TreeState) (proc : ProcessRow) : TreeState :=
  if proc.PPID ∈ st.parents then
    { parents := proc.PID :: st.parents, children := st.children ++ [proc] }
  else
    st

/-- The tree builder (src/index.js lines 100-113): seed `parents` with the
root pid, make one linear pass over the rows, and return the accumulated
`children` list. -/
def childrenOfPid (pid : String) (ps : List ProcessRow) : List ProcessRow :=
  (ps.foldl treeStep { parents := [pid], children := [] }).children

/-- Auxiliary ordering predicate: `parentsBeforeAux root seen rows` holds when every row of `rows` has a
PPID equal to `root` or to the PID of a row seen strictly earlier
(the PIDs of earlier rows are accumulated in `seen`). -/
def parentsBeforeAux (root : String) : List String → List ProcessRow → Bool
  | _, [] => true
  | seen, r :: rs =>
    (r.PPID == root || seen.contains r.PPID) && parentsBeforeAux root (r.PID :: seen) rs

/-- Parents-before-children ordering of a row sequence: each row's PPID is
the root pid or the PID of some row appearing earlier in the sequence. -/
def parentsBefore (root : String) (rows : List ProcessRow) : Bool :=
  parentsBeforeAux root [] rows

/-- Reachability: `Reaches rows root p` holds when pid `p` is reachable from `root` by following
parent→child edges of `rows` zero or more times — `p` is a transitive
descendant of `root` in the sense of the glossary. -/
inductive Reaches (rows : List ProcessRow) (root : String) : String → Prop
  | refl : Reaches rows root root
  | step (r : ProcessRow) (hr : r ∈ rows) (hp : Reaches rows root r.PPID) :
      Reaches rows root r.PID

end PsTree
namespace PsTree

lemma parentsBeforeAux_cons (root : String) (seen : List String) (r : ProcessRow)
    (rs : List ProcessRow) :
    parentsBeforeAux root seen (r :: rs) = true ↔
      (r.PPID = root ∨ r.PPID ∈ seen) ∧ parentsBeforeAux root (r.PID :: seen) rs = true := by
  simp [parentsBeforeAux]

lemma parentsBeforeAux_snoc (root : String) :
    ∀ (l : List ProcessRow) (seen : List String) (r : ProcessRow),
      parentsBeforeAux root seen l = true →
      (r.PPID = root ∨ r.PPID ∈ seen ∨ ∃ q ∈ l, q.PID = r.PPID) →
      parentsBeforeAux root seen (l ++ [r]) = true := by
  intro l
  induction l with
  | nil =>
    intro seen r _ hr
    have : r.PPID = root ∨ r.PPID ∈ seen := by
      rcases hr with h | h | ⟨q, hq, _⟩
      · exact Or.inl h
      · exact Or.inr h
      · exact absurd hq (List.not_mem_nil q)
    simpa [parentsBeforeAux] using this
  | cons q qs ih =>
    intro seen r hl hr
    rw [List.cons_append, parentsBeforeAux_cons] at *
    refine ⟨hl.1, ih (q.PID :: seen) r hl.2 ?_⟩
    rcases hr with h | h | ⟨q', hq', hpid⟩
    · exact Or.inl h
    · exact Or.inr (Or.inl (List.mem_cons_of_mem _ h))
    · rcases List.mem_cons.mp hq' with rfl | hq'
      · exact Or.inr (Or.inl (by simp [hpid]))
      · exact Or.inr (Or.inr ⟨q', hq', hpid⟩)

lemma foldl_parents_reaches (rows : List ProcessRow) (root : String) :
    ∀ (l : List ProcessRow) (st : TreeState),
      (∀ r ∈ l, r ∈ rows) →
      (∀ p ∈ st.parents, Reaches rows root p) →
      ∀ p ∈ (l.foldl treeStep st).parents, Reaches rows root p := by
  intro l
  induction l with
  | nil => intro st _ hst p hp; exact hst p hp
  | cons r rs ih =>
    intro st hmem hst p hp
    refine ih (treeStep st r) (fun q hq => hmem q (List.mem_cons_of_mem _ hq)) ?_ p hp
    intro q hq
    unfold treeStep at hq
    split at hq
    · rcases List.mem_cons.mp hq with rfl | hq
      · exact Reaches.step r (hmem r (List.mem_cons_self _ _)) (hst _ (by assumption))
      · exact hst q hq
    · exact hst q hq

end PsTree
namespace PsTree

lemma foldl_children_sublist :
    ∀ (l : List ProcessRow) (st : TreeState),
      ∃ d, (l.foldl treeStep st).children = st.children ++ d ∧ d.Sublist l := by
  intro l
  induction l with
  | nil => intro st; exact ⟨[], by simp, List.Sublist.refl _⟩
  | cons r rs ih =>
    intro st
    rw [List.foldl_cons]
    rcases ih (treeStep st r) with ⟨d, hd, hsub⟩
    by_cases h : r.PPID ∈ st.parents
    · refine ⟨r :: d, ?_, List.Sublist.cons₂ r hsub⟩
      rw [hd]
      simp [treeStep, h]
    · refine ⟨d, ?_, List.Sublist.cons r hsub⟩
      rw [hd]
      simp [treeStep, h]

lemma foldl_parents_mono :
    ∀ (l : List ProcessRow) (st : TreeState) (p : String),
      p ∈ st.parents → p ∈ (l.foldl treeStep st).parents := by
  intro l
  induction l with
  | nil => intro st p hp; exact hp
  | cons r rs ih =>
    intro st p hp
    refine ih (treeStep st r) p ?_
    unfold treeStep
    split
    · exact List.mem_cons_of_mem _ hp
    · exact hp

lemma foldl_complete (root : String) :
    ∀ (l : List ProcessRow) (st : TreeState) (seen : List String),
      parentsBeforeAux root seen l = true →
      root ∈ st.parents →
      (∀ s ∈ seen, s ∈ st.parents) →
      (l.foldl treeStep st).children = st.children ++ l := by
  intro l
  induction l with
  | nil => intro st seen _ _ _; simp
  | cons r rs ih =>
    intro st seen hpb hroot hseen
    rw [parentsBeforeAux_cons] at hpb
    have hmem : r.PPID ∈ st.parents := by
      rcases hpb.1 with h | h
      · exact h ▸ hroot
      · exact hseen _ h
    have hstep : treeStep st r =
        { parents := r.PID :: st.parents, children := st.children ++ [r] } := by
      simp [treeStep, hmem]
    rw [List.foldl_cons, hstep,
      ih _ (r.PID :: seen) hpb.2 (List.mem_cons_of_mem _ hroot) ?_]
    · simp
    · intro s hs
      rcases List.mem_cons.mp hs with rfl | hs
      · exact List.mem_cons_self _ _
      · exact List.mem_cons_of_mem _ (hseen s hs)

lemma parentsBefore_reaches (fullrows : List ProcessRow) (root : String) :
    ∀ (l : List ProcessRow) (seen : List String),
      parentsBeforeAux root seen l = true →
      (∀ s ∈ seen, Reaches fullrows root s) →
      (∀ r ∈ l, r ∈ fullrows) →
      ∀ r ∈ l, Reaches fullrows root r.PID := by
  intro l
  induction l with
  | nil => intro seen _ _ _ r hr; exact absurd hr (List.not_mem_nil r)
  | cons q qs ih =>
    intro seen hpb hseen hmem r hr
    rw [parentsBeforeAux_cons] at hpb
    have hq : Reaches fullrows root q.PID := by
      refine Reaches.step q (hmem q (List.mem_cons_self _ _)) ?_
      rcases hpb.1 with h | h
      · exact h ▸ Reaches.refl
      · exact hseen _ h
    rcases List.mem_cons.mp hr with rfl | hr
    · exact hq
    · refine ih (q.PID :: seen) hpb.2 ?_
        (fun x hx => hmem x (List.mem_cons_of_mem _ hx)) r hr
      intro s hs
      rcases List.mem_cons.mp hs with rfl | hs
      · exact hq
      · exact hseen s hs

end PsTree
namespace PsTree

/-- Invariant of the tree-builder pass: the keys of `parents` are exactly the
root pid together with the PIDs of the rows collected so far, and the
collected rows are chained (each PPID is the root or an earlier collected
PID). -/
def TreeInv (root : String) (st : TreeState) : Prop :=
  (∀ p, p ∈ st.parents ↔ p = root ∨ ∃ r ∈ st.children, r.PID = p) ∧
  parentsBefore root st.children = true

lemma treeStep_inv (root : String) (st : TreeState) (proc : ProcessRow)
    (h : TreeInv root st) : TreeInv root (treeStep st proc) := by
  obtain ⟨hiff, hpb⟩ := h
  unfold treeStep
  by_cases hc : proc.PPID ∈ st.parents
  · rw [if_pos hc]
    constructor
    · intro p
      simp only [List.mem_cons, hiff p, List.mem_append, List.mem_singleton]
      constructor
      · rintro (rfl | hr | ⟨r, hr, hpid⟩)
        · exact Or.inr ⟨proc, Or.inr (Or.inl rfl), rfl⟩
        · exact Or.inl hr
        · exact Or.inr ⟨r, Or.inl hr, hpid⟩
      · rintro (hr | ⟨r, hr | rfl | h0, hpid⟩)
        · exact Or.inr (Or.inl hr)
        · exact Or.inr (Or.inr ⟨r, hr, hpid⟩)
        · exact Or.inl hpid.symm
        · exact absurd h0 (List.not_mem_nil r)
    · refine parentsBeforeAux_snoc root st.children [] proc hpb ?_
      rcases (hiff proc.PPID).mp hc with h' | ⟨r, hr, hpid⟩
      · exact Or.inl h'
      · exact Or.inr (Or.inr ⟨r, hr, hpid⟩)
  · rw [if_neg hc]
    exact ⟨hiff, hpb⟩

lemma foldl_inv (root : String) :
    ∀ (l : List ProcessRow) (st : TreeState),
      TreeInv root st → TreeInv root (l.foldl treeStep st) := by
  intro l
  induction l with
  | nil => intro st h; exact h
  | cons r rs ih => intro st h; exact ih _ (treeStep_inv root st r h)

lemma treeInv_init (root : String) :
    TreeInv root { parents := [root], children := [] } := by
  constructor
  · intro p
    simp
  · rfl

lemma foldl_children_reaches (rows : List ProcessRow) (root : String) :
    ∀ (l : List ProcessRow) (st : TreeState),
      (∀ r ∈ l, r ∈ rows) →
      (∀ p ∈ st.parents, Reaches rows root p) →
      (∀ r ∈ st.children, Reaches rows root r.PPID) →
      ∀ r ∈ (l.foldl treeStep st).children, Reaches rows root r.PPID := by
  intro l
  induction l with
  | nil => intro st _ _ hch r hr; exact hch r hr
  | cons q qs ih =>
    intro st hmem hpar hch r hr
    rw [List.foldl_cons] at hr
    refine ih (treeStep st q) (fun x hx => hmem x (List.mem_cons_of_mem _ hx)) ?_ ?_ r hr
    · intro p hp
      unfold treeStep at hp
      split at hp
      · rcases List.mem_cons.mp hp with rfl | hp
        · exact Reaches.step q (hmem q (List.mem_cons_self _ _)) (hpar _ (by assumption))
        · exact hpar p hp
      · exact hpar p hp
    · intro x hx
      unfold treeStep at hx
      split at hx
      · rcases List.mem_append.mp hx with hx | hx
        · exact hch x hx
        · rw [List.mem_singleton] at hx
          subst hx
          exact hpar _ (by assumption)
      · exact hch x hx

lemma reaches_cases (rows : List ProcessRow) (root p : String)
    (h : Reaches rows root p) : p = root ∨ ∃ r ∈ rows, r.PID = p := by
  cases h with
  | refl => exact Or.inl rfl
  | step r hr _ => exact Or.inr ⟨r, hr, rfl⟩

end PsTree
namespace PsTree

/-- C1: under parents-before-children ordering, the single-pass scan returns
exactly the rows whose PID is a transitive descendant of the root pid, in the
order encountered. -/
theorem singlePass_matches_transitive_closure (root : String) (rows : List ProcessRow)
    (hord : parentsBefore root rows = true) :
    (∀ r, r ∈ childrenOfPid root rows ↔ r ∈ rows ∧ Reaches rows root r.PID) ∧
    (childrenOfPid root rows).Sublist rows := by
  have hall : childrenOfPid root rows = rows := by
    have h := foldl_complete root rows { parents := [root], children := [] } [] hord
      (by simp) (by simp)
    simpa [childrenOfPid] using h
  have hreach : ∀ r ∈ rows, Reaches rows root r.PID :=
    parentsBefore_reaches rows root rows [] hord (by simp) (fun r hr => hr)
  rw [hall]
  exact ⟨fun r => ⟨fun hr => ⟨hr, hreach r hr⟩, fun h => h.1⟩, List.Sublist.refl rows⟩

theorem singlePass_matches_transitive_closure_witness :
    parentsBefore "1" [⟨"sh", "1", "2", "S"⟩, ⟨"node", "2", "3", "R"⟩] = true ∧
    ((∀ r, r ∈ childrenOfPid "1" [⟨"sh", "1", "2", "S"⟩, ⟨"node", "2", "3", "R"⟩] ↔
        r ∈ [(⟨"sh", "1", "2", "S"⟩ : ProcessRow), ⟨"node", "2", "3", "R"⟩] ∧
          Reaches [⟨"sh", "1", "2", "S"⟩, ⟨"node", "2", "3", "R"⟩] "1" r.PID) ∧
      (childrenOfPid "1" [⟨"sh", "1", "2", "S"⟩, ⟨"node", "2", "3", "R"⟩]).Sublist
        [⟨"sh", "1", "2", "S"⟩, ⟨"node", "2", "3", "R"⟩]) :=
  ⟨by decide, singlePass_matches_transitive_closure "1" _ (by decide)⟩

/-- C2 counterexample: in the claimed order (parent row first, grandchild row
second) the grandchild row with PID 300 IS in the result, contrary to the
claim. -/
theorem orderedScenario_includes_grandchild :
    (⟨"grandchild", "200", "300", ""⟩ : ProcessRow) ∈
      childrenOfPid "100"
        [⟨"child", "100", "200", ""⟩, ⟨"grandchild", "200", "300", ""⟩] := by
  decide

/-- C2 amended: with the grandchild row placed before its parent row, the
single pass includes PID 200 and misses PID 300. -/
theorem reversedScenario_misses_grandchild :
    childrenOfPid "100"
        [⟨"grandchild", "200", "300", ""⟩, ⟨"child", "100", "200", ""⟩] =
      [⟨"child", "100", "200", ""⟩] := by
  decide

/-- C4 counterexample: a row whose PID and PPID both equal the root pid IS
added to the result, contrary to the claim. -/
theorem rootSelfLoop_row_included :
    childrenOfPid "1" [⟨"init", "1", "1", "S"⟩] = [⟨"init", "1", "1", "S"⟩] := by
  decide

/-- C4 amended: a row whose PID equals the root pid is treated like any other
row — it is added exactly when its PPID passes the membership test: a single
row with PID = PPID = root is added, while a root-PID row whose PPID differs
from the root (and matches no earlier collected PID) is not. -/
theorem rootRow_membership_rule (root ppid c s : String) :
    childrenOfPid root [⟨c, root, root, s⟩] = [⟨c, root, root, s⟩] ∧
    (ppid ≠ root → childrenOfPid root [⟨c, ppid, root, s⟩] = []) := by
  constructor
  · simp [childrenOfPid, treeStep]
  · intro h
    simp [childrenOfPid, treeStep, h]

theorem rootRow_membership_rule_witness :
    (childrenOfPid "1" [⟨"x", "1", "1", ""⟩] = [⟨"x", "1", "1", ""⟩] ∧
      ("2" ≠ "1" → childrenOfPid "1" [⟨"x", "2", "1", ""⟩] = [])) ∧
    childrenOfPid "1" [⟨"x", "2", "1", ""⟩] = [] :=
  ⟨rootRow_membership_rule "1" "2" "x" "",
    (rootRow_membership_rule "1" "2" "x" "").2 (by decide)⟩

/-- C5: if no row's PPID is reachable from the root pid, the scan returns the
empty list (the pure tree builder has no error outcome). -/
theorem unreachable_rows_empty_result (root : String) (rows : List ProcessRow)
    (h : ∀ r ∈ rows, ¬ Reaches rows root r.PPID) :
    childrenOfPid root rows = [] := by
  by_contra hne
  obtain ⟨r, hr⟩ := List.exists_mem_of_ne_nil _ hne
  have hsound : ∀ x ∈ childrenOfPid root rows, Reaches rows root x.PPID := by
    have h1 := foldl_children_reaches rows root rows
      { parents := [root], children := [] } (fun x hx => hx) ?_ ?_
    · exact h1
    · intro p hp
      rw [List.mem_singleton] at hp
      subst hp
      exact Reaches.refl
    · intro x hx
      exact absurd hx (List.not_mem_nil x)
  obtain ⟨d, hd, hsub⟩ := foldl_children_sublist rows { parents := [root], children := [] }
  have hdd : childrenOfPid root rows = d := by simpa [childrenOfPid] using hd
  have hrow : r ∈ rows := hsub.subset (hdd ▸ hr)
  exact absurd (hsound r hr) (h r hrow)

theorem unreachable_rows_empty_result_witness :
    (∀ r ∈ [(⟨"a", "5", "6", "S"⟩ : ProcessRow)],
      ¬ Reaches [(⟨"a", "5", "6", "S"⟩ : ProcessRow)] "1" r.PPID) ∧
    childrenOfPid "1" [⟨"a", "5", "6", "S"⟩] = [] := by
  have h : ∀ r ∈ [(⟨"a", "5", "6", "S"⟩ : ProcessRow)],
      ¬ Reaches [(⟨"a", "5", "6", "S"⟩ : ProcessRow)] "1" r.PPID := by
    intro r hr hre
    rw [List.mem_singleton] at hr
    subst hr
    rcases reaches_cases _ _ _ hre with h1 | ⟨q, hq, h2⟩
    · exact absurd h1 (by decide)
    · rw [List.mem_singleton] at hq
      subst hq
      exact absurd h2 (by decide)
  exact ⟨h, unreachable_rows_empty_result "1" _ h⟩

/-- C10: after any prefix of the pass, the `parents` keys are exactly the
root pid plus the PIDs of the rows collected so far; the collected rows are
chained (each PPID is the root or an earlier collected PID); the collected
rows form a subsequence of the prefix; and `parents` only ever grows. -/
theorem treeBuilder_pass_invariant (root : String) (rows pre suf : List ProcessRow)
    (hsplit : rows = pre ++ suf) :
    (∀ p, p ∈ (pre.foldl treeStep { parents := [root], children := [] }).parents ↔
        p = root ∨
          ∃ r ∈ (pre.foldl treeStep { parents := [root], children := [] }).children,
            r.PID = p) ∧
    parentsBefore root (pre.foldl treeStep { parents := [root], children := [] }).children
      = true ∧
    ((pre.foldl treeStep { parents := [root], children := [] }).children).Sublist pre ∧
    ∀ p ∈ (pre.foldl treeStep { parents := [root], children := [] }).parents,
      p ∈ (rows.foldl treeStep { parents := [root], children := [] }).parents := by
  have hinv := foldl_inv root pre { parents := [root], children := [] } (treeInv_init root)
  obtain ⟨d, hd, hsub⟩ := foldl_children_sublist pre { parents := [root], children := [] }
  refine ⟨hinv.1, hinv.2, ?_, ?_⟩
  · have hdd : (pre.foldl treeStep { parents := [root], children := [] }).children = d := by
      simpa using hd
    rw [hdd]
    exact hsub
  · intro p hp
    subst hsplit
    rw [List.foldl_append]
    exact foldl_parents_mono suf _ p hp

theorem treeBuilder_pass_invariant_witness :
    [(⟨"sh", "1", "2", "S"⟩ : ProcessRow), ⟨"node", "9", "3", "R"⟩] =
        [(⟨"sh", "1", "2", "S"⟩ : ProcessRow)] ++ [(⟨"node", "9", "3", "R"⟩ : ProcessRow)] ∧
    ((∀ p, p ∈ ([(⟨"sh", "1", "2", "S"⟩ : ProcessRow)].foldl treeStep
          { parents := ["1"], children := [] }).parents ↔
        p = "1" ∨
          ∃ r ∈ ([(⟨"sh", "1", "2", "S"⟩ : ProcessRow)].foldl treeStep
              { parents := ["1"], children := [] }).children, r.PID = p) ∧
      parentsBefore "1" ([(⟨"sh", "1", "2", "S"⟩ : ProcessRow)].foldl treeStep
          { parents := ["1"], children := [] }).children = true ∧
      (([(⟨"sh", "1", "2", "S"⟩ : ProcessRow)].foldl treeStep
          { parents := ["1"], children := [] }).children).Sublist
        [(⟨"sh", "1", "2", "S"⟩ : ProcessRow)] ∧
      ∀ p ∈ ([(⟨"sh", "1", "2", "S"⟩ : ProcessRow)].foldl treeStep
          { parents := ["1"], children := [] }).parents,
        p ∈ (([(⟨"sh", "1", "2", "S"⟩ : ProcessRow), ⟨"node", "9", "3", "R"⟩]).foldl treeStep
            { parents := ["1"], children := [] }).parents) :=
  ⟨rfl, treeBuilder_pass_invariant "1"
    [⟨"sh", "1", "2", "S"⟩, ⟨"node", "9", "3", "R"⟩]
    [⟨"sh", "1", "2", "S"⟩] [⟨"node", "9", "3", "R"⟩] rfl⟩

end PsTree
namespace PsTree

/-- State of the `for c of line` loop of `parseCsvLine`
(src/index.js lines 122-138): fields emitted so far, the field being
accumulated, and the inside-quoted-field flag. -/
structure CsvState where
  fields : List String
  current : String
  inQuote : Bool
deriving DecidableEq, Repr

/-- One step of the `parseCsvLine` loop (src/index.js lines 126-135): a
double quote toggles `inQuote`; a comma outside quotes closes the current
field; any other character is appended to the current field. -/
def csvStep (st : CsvState) (c : Char) : CsvState :=
  if c = '"' then
    { st with inQuote := !st.inQuote }
  else if c = ',' ∧ st.inQuote = false then
    { fields := st.fields ++ [st.current], current := "", inQuote := st.inQuote }
  else
    { st with current := st.current.push c }

/-- The function `parseCsvLine` (src/index.js lines 122-138): run the loop over the
line's characters and push the final accumulated field. -/
def parseCsvLine (line : String) : List String :=
  let st := line.data.foldl csvStep { fields := [], current := "", inQuote := false }
  st.fields ++ [st.current]

/-- A field as rendered by `ConvertTo-Csv`: wrapped in double quotes
(src/index.js lines 43-48 show the format). -/
def csvQuote (f : String) : String := "\"" ++ f ++ "\""

/-- A CSV line as rendered by `ConvertTo-Csv`: quoted fields joined by
commas. -/
def csvRender : List String → String
  | [] => ""
  | [f] => csvQuote f
  | f :: fs => csvQuote f ++ "," ++ csvRender fs

lemma csvRender_cons (f : String) (rest : List String) (h : rest ≠ []) :
    csvRender (f :: rest) = csvQuote f ++ "," ++ csvRender rest := by
  cases rest with
  | nil => exact absurd rfl h
  | cons g gs => rfl

lemma csv_inQuote_run :
    ∀ (l : List Char) (st : CsvState), st.inQuote = true → '"' ∉ l →
      l.foldl csvStep st =
        { fields := st.fields, current := ⟨st.current.data ++ l⟩, inQuote := true } := by
  intro l
  induction l with
  | nil =>
    intro st hq _
    cases st with
    | mk fields current inQuote =>
      simp at hq
      simp [hq]
  | cons c cs ih =>
    intro st hq hnm
    have hc : c ≠ '"' := fun h => hnm (h ▸ List.mem_cons_self _ _)
    have hstep : csvStep st c = { st with current := st.current.push c } := by
      simp [csvStep, hc, hq]
    rw [List.foldl_cons, hstep,
      ih _ (by simp [hq]) (fun h => hnm (List.mem_cons_of_mem _ h))]
    simp [String.push]

lemma csv_quoted_field (f : List Char) (st : CsvState)
    (hq : st.inQuote = false) (hnm : '"' ∉ f) :
    ('"' :: f ++ ['"']).foldl csvStep st =
      { fields := st.fields, current := ⟨st.current.data ++ f⟩, inQuote := false } := by
  have hopen : csvStep st '"' = { st with inQuote := true } := by
    simp [csvStep, hq]
  rw [List.cons_append, List.foldl_cons, hopen, List.foldl_append,
    csv_inQuote_run f _ (by simp) hnm]
  simp [csvStep]

lemma csv_comma_step (st : CsvState) (hq : st.inQuote = false) :
    csvStep st ',' =
      { fields := st.fields ++ [st.current], current := "", inQuote := false } := by
  simp [csvStep, hq]

end PsTree
namespace PsTree

lemma csv_render_run :
    ∀ (init : List String) (last : String) (st : CsvState),
      st.inQuote = false → st.current = "" →
      (∀ f ∈ init ++ [last], '"' ∉ f.data) →
      (csvRender (init ++ [last])).data.foldl csvStep st =
        { fields := st.fields ++ init, current := last, inQuote := false } := by
  intro init
  induction init with
  | nil =>
    intro last st hq hcur hnm
    have hdata : (csvRender ([] ++ [last])).data = '"' :: last.data ++ ['"'] := by
      simp [csvRender, csvQuote, String.data_append]
    rw [hdata, csv_quoted_field last.data st hq (by simpa using hnm last (by simp))]
    simp [hcur]
  | cons f init' ih =>
    intro last st hq hcur hnm
    have hne : init' ++ [last] ≠ ([] : List String) := by simp
    have hdata : (csvRender ((f :: init') ++ [last])).data =
        ('"' :: f.data ++ ['"']) ++ [','] ++ (csvRender (init' ++ [last])).data := by
      rw [List.cons_append, csvRender_cons f (init' ++ [last]) hne]
      simp [csvQuote, String.data_append]
    rw [hdata, List.foldl_append, List.foldl_append,
      csv_quoted_field f.data st hq (by simpa using hnm f (by simp))]
    have hcomma :
        [','].foldl csvStep
            { fields := st.fields, current := ⟨st.current.data ++ f.data⟩, inQuote := false } =
          { fields := st.fields ++ [f], current := "", inQuote := false } := by
      simp [List.foldl_cons, csv_comma_step, hcur]
    rw [hcomma, ih last _ rfl rfl (fun g hg => hnm g (List.mem_cons_of_mem _ hg))]
    simp

/-- C3: the CSV field parser inverts the quoted rendering: for any nonempty
list of fields none of which contains a double quote — fields may contain
commas — parsing the line made of the double-quoted fields joined by commas
returns exactly the original fields, with the quotes stripped and quoted
commas not treated as separators. -/
theorem parseCsvLine_quoted_roundtrip (fs : List String)
    (hne : fs ≠ []) (hq : ∀ f ∈ fs, '"' ∉ f.data) :
    parseCsvLine (csvRender fs) = fs := by
  rcases List.eq_nil_or_concat fs with rfl | ⟨init, last, h⟩
  · exact absurd rfl hne
  · rw [List.concat_eq_append] at h
    subst h
    simp only [parseCsvLine]
    rw [csv_render_run init last _ rfl rfl hq]
    simp

theorem parseCsvLine_quoted_roundtrip_witness :
    (["567", "1234", "", "C:\\Program Files, App\\app.exe"] ≠ ([] : List String)) ∧
    (∀ f ∈ ["567", "1234", "", "C:\\Program Files, App\\app.exe"], '"' ∉ f.data) ∧
    parseCsvLine (csvRender ["567", "1234", "", "C:\\Program Files, App\\app.exe"]) =
      ["567", "1234", "", "C:\\Program Files, App\\app.exe"] :=
  ⟨by decide, by decide,
    parseCsvLine_quoted_roundtrip ["567", "1234", "", "C:\\Program Files, App\\app.exe"]
      (by decide) (by decide)⟩

end PsTree
namespace PsTree

/-- The ASCII part of the regex whitespace class `\s` used at
src/index.js line 85 (space, tab, line feed, carriage return, vertical tab,
form feed; the unicode spaces JS also includes do not occur in `ps`
output). -/
def wsChar (c : Char) : Bool :=
  c == ' ' || c == '\t' || c == '\n' || c == '\r' || c == '\x0b' || c == '\x0c'

/-- Line terminators, which the regex metacharacter `.` never matches. -/
def lineTerm (c : Char) : Bool := c == '\n' || c == '\r'

lemma wsChar_not_digit {c : Char} (h : wsChar c = true) : Char.isDigit c = false := by
  simp [wsChar] at h
  rcases h with ((((rfl | rfl) | rfl) | rfl) | rfl) | rfl <;> decide

lemma isDigit_not_ws {c : Char} (h : Char.isDigit c = true) : wsChar c = false := by
  by_contra hc
  rw [Bool.not_eq_false] at hc
  rw [wsChar_not_digit hc] at h
  exact Bool.false_ne_true h

lemma takeWhile_token (p : Char → Bool) :
    ∀ (tok rest : List Char), (∀ c ∈ tok, p c = true) →
      (∀ c, rest.head? = some c → p c = false) →
      (tok ++ rest).takeWhile p = tok := by
  intro tok
  induction tok with
  | nil =>
    intro rest _ hrest
    cases rest with
    | nil => rfl
    | cons c cs => simp [List.takeWhile_cons, hrest c rfl]
  | cons c cs ih =>
    intro rest htok hrest
    simp [List.takeWhile_cons, htok c (List.mem_cons_self _ _),
      ih rest (fun x hx => htok x (List.mem_cons_of_mem _ hx)) hrest]

lemma dropWhile_token (p : Char → Bool) :
    ∀ (tok rest : List Char), (∀ c ∈ tok, p c = true) →
      (∀ c, rest.head? = some c → p c = false) →
      (tok ++ rest).dropWhile p = rest := by
  intro tok
  induction tok with
  | nil =>
    intro rest _ hrest
    cases rest with
    | nil => rfl
    | cons c cs => simp [List.dropWhile_cons, hrest c rfl]
  | cons c cs ih =>
    intro tok htok hrest
    simp [List.dropWhile_cons, htok c (List.mem_cons_self _ _),
      ih _ (fun x hx => htok x (List.mem_cons_of_mem _ hx)) hrest]

lemma dropWhile_head_false (p : Char → Bool) (l : List Char)
    (h : ∀ c, l.head? = some c → p c = false) : l.dropWhile p = l := by
  cases l with
  | nil => rfl
  | cons c cs => simp [List.dropWhile_cons, h c rfl]

lemma head_app_class (q p : Char → Bool) (x y : List Char) (hx : x ≠ [])
    (hall : ∀ c ∈ x, q c = true) (himp : ∀ c, q c = true → p c = false) :
    ∀ c, (x ++ y).head? = some c → p c = false := by
  intro c hc
  cases x with
  | nil => exact absurd rfl hx
  | cons a as =>
    simp at hc
    subst hc
    exact himp a (hall a (List.mem_cons_self _ _))

end PsTree
namespace PsTree

/-- The match of `/^\s*(\d+)\s+(\d+)\s+(\S+)\s+(.+)$/` against a line
(src/index.js lines 85-86), returning the four captured groups, or `[]`
when the regex does not match (`match ? match.slice(1) : []`). Each
`\d+`, `\s+`, `\S+` takes its maximal run — a shorter, backtracked run
would put a character of the same class where the next mandatory run must
start — and `(.+)` takes the whole remainder, which must be nonempty and
free of line terminators (`.` never matches those). This maximal-munch
reading is exact for the lines the code feeds it, which are trimmed and so
never end in whitespace. -/
def posixColumns (line : String) : List String :=
  let l0 := line.data.dropWhile wsChar
  let d1 := l0.takeWhile Char.isDigit
  let l1 := l0.dropWhile Char.isDigit
  let s1 := l1.takeWhile wsChar
  let l2 := l1.dropWhile wsChar
  let d2 := l2.takeWhile Char.isDigit
  let l3 := l2.dropWhile Char.isDigit
  let s2 := l3.takeWhile wsChar
  let l4 := l3.dropWhile wsChar
  let t3 := l4.takeWhile (fun c => !wsChar c)
  let l5 := l4.dropWhile (fun c => !wsChar c)
  let s3 := l5.takeWhile wsChar
  let rest := l5.dropWhile wsChar
  if d1 = [] ∨ s1 = [] ∨ d2 = [] ∨ s2 = [] ∨ t3 = [] ∨ s3 = [] ∨ rest = [] ∨
      rest.any lineTerm = true then
    []
  else
    [⟨d1⟩, ⟨d2⟩, ⟨t3⟩, ⟨rest⟩]

/-- C6: a POSIX data line made of two nonempty digit tokens, a nonempty
non-whitespace status token and a nonempty remainder (whose first character
is not whitespace and which contains no line terminator), separated by
nonempty whitespace runs, is captured as PPID, PID, STAT and COMMAND, the
remainder kept whole even when it contains internal whitespace. -/
theorem posixColumns_capture (ppid pid stat cmd s1 s2 s3 : String)
    (hppid : ppid.data ≠ []) (hppidD : ∀ c ∈ ppid.data, Char.isDigit c = true)
    (hpid : pid.data ≠ []) (hpidD : ∀ c ∈ pid.data, Char.isDigit c = true)
    (hs1 : s1.data ≠ []) (hs1W : ∀ c ∈ s1.data, wsChar c = true)
    (hs2 : s2.data ≠ []) (hs2W : ∀ c ∈ s2.data, wsChar c = true)
    (hs3 : s3.data ≠ []) (hs3W : ∀ c ∈ s3.data, wsChar c = true)
    (hstat : stat.data ≠ []) (hstatW : ∀ c ∈ stat.data, wsChar c = false)
    (hcmd : cmd.data ≠ []) (hcmdH : ∀ c, cmd.data.head? = some c → wsChar c = false)
    (hcmdT : ∀ c ∈ cmd.data, lineTerm c = false) :
    posixColumns (ppid ++ s1 ++ pid ++ s2 ++ stat ++ s3 ++ cmd) =
      [ppid, pid, stat, cmd] := by
  have hL : (ppid ++ s1 ++ pid ++ s2 ++ stat ++ s3 ++ cmd).data =
      ppid.data ++ (s1.data ++ (pid.data ++ (s2.data ++ (stat.data ++
        (s3.data ++ cmd.data))))) := by
    simp [String.data_append]
  have hs1D : ∀ c, (s1.data ++ (pid.data ++ (s2.data ++ (stat.data ++
      (s3.data ++ cmd.data))))).head? = some c → Char.isDigit c = false :=
    head_app_class wsChar _ _ _ hs1 hs1W (fun c h => wsChar_not_digit h)
  have hpidW : ∀ c, (pid.data ++ (s2.data ++ (stat.data ++
      (s3.data ++ cmd.data)))).head? = some c → wsChar c = false :=
    head_app_class Char.isDigit _ _ _ hpid hpidD (fun c h => isDigit_not_ws h)
  have hs2D : ∀ c, (s2.data ++ (stat.data ++ (s3.data ++ cmd.data))).head? = some c →
      Char.isDigit c = false :=
    head_app_class wsChar _ _ _ hs2 hs2W (fun c h => wsChar_not_digit h)
  have hstatW2 : ∀ c, (stat.data ++ (s3.data ++ cmd.data)).head? = some c →
      wsChar c = false :=
    head_app_class (fun c => !wsChar c) _ _ _ hstat
      (fun c hc => by simp [hstatW c hc]) (fun c h => by simpa using h)
  have hs3N : ∀ c, (s3.data ++ cmd.data).head? = some c → (!wsChar c) = false :=
    head_app_class wsChar _ _ _ hs3 hs3W (fun c h => by simp [h])
  have e0 : (ppid.data ++ (s1.data ++ (pid.data ++ (s2.data ++ (stat.data ++
      (s3.data ++ cmd.data)))))).dropWhile wsChar =
      ppid.data ++ (s1.data ++ (pid.data ++ (s2.data ++ (stat.data ++
        (s3.data ++ cmd.data))))) :=
    dropWhile_head_false _ _
      (head_app_class Char.isDigit _ _ _ hppid hppidD (fun c h => isDigit_not_ws h))
  have e1 : (ppid.data ++ (s1.data ++ (pid.data ++ (s2.data ++ (stat.data ++
      (s3.data ++ cmd.data)))))).takeWhile Char.isDigit = ppid.data :=
    takeWhile_token _ _ _ hppidD hs1D
  have e2 : (ppid.data ++ (s1.data ++ (pid.data ++ (s2.data ++ (stat.data ++
      (s3.data ++ cmd.data)))))).dropWhile Char.isDigit =
      s1.data ++ (pid.data ++ (s2.data ++ (stat.data ++ (s3.data ++ cmd.data)))) :=
    dropWhile_token _ _ _ hppidD hs1D
  have e3 : (s1.data ++ (pid.data ++ (s2.data ++ (stat.data ++
      (s3.data ++ cmd.data))))).takeWhile wsChar = s1.data :=
    takeWhile_token _ _ _ hs1W hpidW
  have e4 : (s1.data ++ (pid.data ++ (s2.data ++ (stat.data ++
      (s3.data ++ cmd.data))))).dropWhile wsChar =
      pid.data ++ (s2.data ++ (stat.data ++ (s3.data ++ cmd.data))) :=
    dropWhile_token _ _ _ hs1W hpidW
  have e5 : (pid.data ++ (s2.data ++ (stat.data ++
      (s3.data ++ cmd.data)))).takeWhile Char.isDigit = pid.data :=
    takeWhile_token _ _ _ hpidD hs2D
  have e6 : (pid.data ++ (s2.data ++ (stat.data ++
      (s3.data ++ cmd.data)))).dropWhile Char.isDigit =
      s2.data ++ (stat.data ++ (s3.data ++ cmd.data)) :=
    dropWhile_token _ _ _ hpidD hs2D
  have e7 : (s2.data ++ (stat.data ++ (s3.data ++ cmd.data))).takeWhile wsChar =
      s2.data :=
    takeWhile_token _ _ _ hs2W hstatW2
  have e8 : (s2.data ++ (stat.data ++ (s3.data ++ cmd.data))).dropWhile wsChar =
      stat.data ++ (s3.data ++ cmd.data) :=
    dropWhile_token _ _ _ hs2W hstatW2
  have e9 : (stat.data ++ (s3.data ++ cmd.data)).takeWhile (fun c => !wsChar c) =
      stat.data :=
    takeWhile_token _ _ _ (fun c hc => by simp [hstatW c hc]) hs3N
  have e10 : (stat.data ++ (s3.data ++ cmd.data)).dropWhile (fun c => !wsChar c) =
      s3.data ++ cmd.data :=
    dropWhile_token _ _ _ (fun c hc => by simp [hstatW c hc]) hs3N
  have e11 : (s3.data ++ cmd.data).takeWhile wsChar = s3.data :=
    takeWhile_token _ _ _ hs3W hcmdH
  have e12 : (s3.data ++ cmd.data).dropWhile wsChar = cmd.data :=
    dropWhile_token _ _ _ hs3W hcmdH
  have hno : cmd.data.any lineTerm = false := by
    rw [List.any_eq_false]
    intro c hc
    simp [hcmdT c hc]
  simp only [posixColumns, hL, e0, e1, e2, e3, e4, e5, e6, e7, e8, e9, e10, e11, e12]
  rw [if_neg]
  push_neg
  exact ⟨hppid, hs1, hpid, hs2, hstat, hs3, hcmd, by simp [hno]⟩

theorem posixColumns_capture_witness :
    posixColumns ("20688" ++ " " ++ "16965" ++ "  " ++ "R+" ++ " " ++ "watch <defunct>") =
      ["20688", "16965", "R+", "watch <defunct>"] :=
  posixColumns_capture "20688" "16965" "R+" "watch <defunct>" " " "  " " "
    (by decide) (by decide) (by decide) (by decide) (by decide) (by decide)
    (by decide) (by decide) (by decide) (by decide) (by decide) (by decide)
    (by decide) (by decide) (by decide)
end PsTree
namespace PsTree

/-- The function `normalizeHeader` (src/index.js lines 146-160): map platform-native
column titles to the canonical POSIX titles; anything else passes
through. -/
def normalizeHeader (str : String) : String :=
  if str = "Name" ∨ str = "COMM" then "COMMAND"
  else if str = "ParentProcessId" then "PPID"
  else if str = "ProcessId" then "PID"
  else if str = "Status" then "STAT"
  else str

/-- C7: the header normalization maps `Name` and `COMM` to `COMMAND`,
`ParentProcessId` to `PPID`, `ProcessId` to `PID`, `Status` to `STAT`, and
leaves every other string unchanged. -/
theorem normalizeHeader_mapping :
    normalizeHeader "Name" = "COMMAND" ∧
    normalizeHeader "COMM" = "COMMAND" ∧
    normalizeHeader "ParentProcessId" = "PPID" ∧
    normalizeHeader "ProcessId" = "PID" ∧
    normalizeHeader "Status" = "STAT" ∧
    ∀ s : String, s ∉ ["Name", "COMM", "ParentProcessId", "ProcessId", "Status"] →
      normalizeHeader s = s := by
  refine ⟨by decide, by decide, by decide, by decide, by decide, ?_⟩
  intro s hs
  simp at hs
  simp [normalizeHeader, hs.1, hs.2.1, hs.2.2.1, hs.2.2.2.1, hs.2.2.2.2]

theorem normalizeHeader_mapping_witness :
    ("CPU" : String) ∉ ["Name", "COMM", "ParentProcessId", "ProcessId", "Status"] ∧
    normalizeHeader "CPU" = "CPU" :=
  ⟨by decide, normalizeHeader_mapping.2.2.2.2.2 "CPU" (by decide)⟩

end PsTree
namespace PsTree

/-- JS `String.trim` as called at src/index.js line 66: strip leading and
trailing whitespace (ASCII class, as in `wsChar`). -/
def trimWs (line : String) : List Char :=
  ((line.data.dropWhile wsChar).reverse.dropWhile wsChar).reverse

/-- The separator test of src/index.js line 69, the `includes` check for a
dash run: the line contains four consecutive dashes somewhere. -/
def hasDashes : List Char → Bool
  | '-' :: '-' :: '-' :: '-' :: _ => true
  | _ :: rest => hasDashes rest
  | [] => false

/-- The whitespace split of src/index.js line 75 (`split` on a run of
whitespace): cut at maximal
whitespace runs. Exact for the lines the code feeds it, which are trimmed
and so never start with whitespace (on a leading run JS would emit one
empty leading field). -/
def splitWs (l : List Char) : List String :=
  match l with
  | [] => []
  | c :: cs =>
    if wsChar c then splitWs cs
    else
      String.mk (c :: cs.takeWhile (fun x => !wsChar x)) ::
        splitWs (cs.dropWhile (fun x => !wsChar x))
termination_by l.length
decreasing_by
  · simp
  · have h := (List.dropWhile_sublist (l := cs) (fun x => !wsChar x)).length_le
    simp
    omega

/-- One call of the `es.map` callback (src/index.js lines 65-99), as a pure
function of the `headers` state and the incoming line: returns the new
`headers` state and the emitted row, if any (`cb()` emits nothing,
`cb(null, row)` emits the row object, modelled positionally as the list of
header/column pairs built at lines 93-96; in that branch
`columns.length ≥ headers.length`, so `columns[i] || ''` is just the
column). -/
def processLine (isWindows : Bool) (headers : Option (List String)) (line : String) :
    Option (List String) × Option (List (String × String)) :=
  let trimmedLine := trimWs line
  if trimmedLine.length = 0 ∨ hasDashes trimmedLine = true then
    (headers, none)
  else
    match headers with
    | none =>
      let rawHeaders := if isWindows then parseCsvLine ⟨trimmedLine⟩ else splitWs trimmedLine
      (some (rawHeaders.map normalizeHeader), none)
    | some hs =>
      let columns :=
        if isWindows then parseCsvLine ⟨trimmedLine⟩ else posixColumns ⟨trimmedLine⟩
      if columns.length < hs.length then
        (some hs, none)
      else
        (some hs, some (hs.zip columns))

/-- C8: a malformed line never produces a row and never aborts: a line that
is empty after trimming or contains a dash run leaves the state unchanged
and emits nothing; a POSIX data line the constrained pattern rejects emits
nothing; a data line with fewer parsed columns than headers emits nothing
(the callback is total — there is no error outcome). -/
theorem malformed_line_emits_no_row (w : Bool) (headers : Option (List String))
    (hs : List String) (line : String) :
    (trimWs line = [] → processLine w headers line = (headers, none)) ∧
    (hasDashes (trimWs line) = true → processLine w headers line = (headers, none)) ∧
    (posixColumns ⟨trimWs line⟩ = [] → hs ≠ [] →
      (processLine false (some hs) line).2 = none) ∧
    ((if w = true then parseCsvLine ⟨trimWs line⟩ else posixColumns ⟨trimWs line⟩).length
        < hs.length →
      (processLine w (some hs) line).2 = none) := by
  refine ⟨?_, ?_, ?_, ?_⟩
  · intro h
    simp [processLine, h]
  · intro h
    simp [processLine, h]
  · intro hcols hne
    by_cases hskip : (trimWs line).length = 0 ∨ hasDashes (trimWs line) = true
    · rcases hskip with h | h
      · simp [processLine, List.length_eq_zero.mp h]
      · simp [processLine, h]
    · simp [processLine, hskip, hcols, List.length_pos.mpr hne]
  · intro hlt
    by_cases hskip : (trimWs line).length = 0 ∨ hasDashes (trimWs line) = true
    · rcases hskip with h | h
      · simp [processLine, List.length_eq_zero.mp h]
      · simp [processLine, h]
    · cases w with
      | false =>
        simp at hlt
        simp [processLine, hskip, hlt]
      | true =>
        simp at hlt
        simp [processLine, hskip, hlt]

theorem malformed_line_emits_no_row_witness :
    (trimWs "   " = [] ∧ processLine false none "   " = (none, none)) ∧
    (hasDashes (trimWs " ------ ") = true ∧
      processLine false none " ------ " = (none, none)) ∧
    (posixColumns ⟨trimWs "bbsd 2899 16958"⟩ = [] ∧
      (processLine false (some ["PPID", "PID", "STAT", "COMMAND"])
        "bbsd 2899 16958").2 = none) ∧
    ((if false = true then parseCsvLine ⟨trimWs "12 34 S sh"⟩
        else posixColumns ⟨trimWs "12 34 S sh"⟩).length
          < (["PPID", "PID", "STAT", "COMMAND", "EXTRA"] : List String).length ∧
      (processLine false (some ["PPID", "PID", "STAT", "COMMAND", "EXTRA"])
        "12 34 S sh").2 = none) :=
  ⟨⟨by decide,
      (malformed_line_emits_no_row false none ["PPID"] "   ").1 (by decide)⟩,
    ⟨by decide,
      (malformed_line_emits_no_row false none ["PPID"] " ------ ").2.1 (by decide)⟩,
    ⟨by decide,
      (malformed_line_emits_no_row false none ["PPID", "PID", "STAT", "COMMAND"]
        "bbsd 2899 16958").2.2.1 (by decide) (by decide)⟩,
    ⟨by decide,
      (malformed_line_emits_no_row false none ["PPID", "PID", "STAT", "COMMAND", "EXTRA"]
        "12 34 S sh").2.2.2 (by decide)⟩⟩

end PsTree
namespace PsTree

/-- The pid argument of the public entry point: a number or a string
(src/index.js lines 13-15 coerce a numeric pid to its decimal string). -/
inductive PidArg
  | num (n : Nat)
  | str (s : String)
deriving DecidableEq, Repr

/-- The pid normalization of src/index.js lines 13-15. -/
def pidToString : PidArg → String
  | .num n => toString n
  | .str s => s

/-- Outcome of the synchronous prefix of `childrenOfPid`: either the usage
error thrown at lines 9-11, or the platform lister spawned at lines 53-60
with the normalized pid kept for the later tree-builder pass. The two are
exclusive, so the usage error precludes starting a subprocess. -/
inductive QueryStart
  | usageError (msg : String)
  | spawned (cmd : String) (args : List String) (pid : String)
deriving DecidableEq, Repr

/-- The synchronous prefix of `childrenOfPid` (src/index.js lines 6-60):
validate the callback, normalize the pid, spawn the platform-appropriate
lister. -/
def startQuery (isWindows : Bool) (pid : PidArg) (callbackIsFunction : Bool) :
    QueryStart :=
  if callbackIsFunction = false then
    .usageError "childrenOfPid(pid, callback) expects callback"
  else if isWindows then
    .spawned "powershell.exe"
      ["Get-CimInstance -Class Win32_Process | Select-Object -Property ParentProcessId,ProcessId,Status,Name | ConvertTo-Csv -NoTypeInformation"]
      (pidToString pid)
  else
    .spawned "ps" ["-A", "-o", "ppid,pid,stat,comm"] (pidToString pid)

/-- C9: with a non-function callback the entry point fails at once with the
descriptive usage error and no subprocess is spawned; with a function
callback it never raises the usage error and always proceeds to spawn —
the callback check is the only synchronous validation. -/
theorem callback_validation (w : Bool) (pid : PidArg) :
    startQuery w pid false =
      QueryStart.usageError "childrenOfPid(pid, callback) expects callback" ∧
    (∀ msg, startQuery w pid true ≠ QueryStart.usageError msg) ∧
    (∃ cmd args p, startQuery w pid true = QueryStart.spawned cmd args p) := by
  refine ⟨rfl, ?_, ?_⟩
  · intro msg h
    cases w <;> simp [startQuery] at h
  · cases w <;> exact ⟨_, _, _, rfl⟩

end PsTree

namespace PsTree

theorem callback_validation_witness :
    startQuery false (PidArg.num 42) false =
      QueryStart.usageError "childrenOfPid(pid, callback) expects callback" ∧
    (∀ msg, startQuery false (PidArg.num 42) true ≠ QueryStart.usageError msg) ∧
    (∃ cmd args p,
      startQuery false (PidArg.num 42) true = QueryStart.spawned cmd args p) :=
  callback_validation false (PidArg.num 42)

end PsTree
